import Mathlib

/-!
Verification of the ModManager reconciliation engine (`mod_finder.py`,
`utils.py`) against its specification.  The Python source is shallowly
embedded: pure functions become Lean functions, dictionaries become
association lists with Python's insert-or-replace-in-place semantics,
network responses become explicit result values, and the swallowed
exceptions of the source become explicit branches.
-/

/- ## Version comparator (`_version_key` / `is_version_newer`)

`_VERSION_RE = re.compile(r"(\d+|[a-zA-Z]+)")`; `findall` yields the
maximal runs of digits and of ASCII letters, in order, skipping every
other character.  We embed the scan as a structural recursion carrying
the run currently being extended. -/

inductive RawTok where
  | digits (run : List Char)
  | letters (run : List Char)
deriving DecidableEq

def flushTok : Option RawTok → List RawTok
  | none => []
  | some t => [t]

def rawTokensAux : Option RawTok → List Char → List RawTok
  | cur, [] => flushTok cur
  | cur, c :: cs =>
    if c.isDigit then
      match cur with
      | some (RawTok.digits r) => rawTokensAux (some (RawTok.digits (r ++ [c]))) cs
      | _ => flushTok cur ++ rawTokensAux (some (RawTok.digits [c])) cs
    else if c.isAlpha then
      match cur with
      | some (RawTok.letters r) => rawTokensAux (some (RawTok.letters (r ++ [c]))) cs
      | _ => flushTok cur ++ rawTokensAux (some (RawTok.letters [c])) cs
    else
      flushTok cur ++ rawTokensAux none cs

def rawTokens (s : List Char) : List RawTok :=
  rawTokensAux none s

/-- Decimal value of a digit run, the embedding of Python's `int(part)`. -/
def natOfDigits (l : List Char) : Nat :=
  l.foldl (fun a c => 10 * a + (c.toNat - '0'.toNat)) 0

/-- One segment of a version key: Python's `(0, int(part))` becomes
`Seg.num`, `(1, part.lower())` becomes `Seg.txt`. -/
inductive Seg where
  | num (n : Nat)
  | txt (s : List Char)
deriving DecidableEq

/-- Lexicographic strict order on character lists: the embedding of
Python's `<` on strings (code-point order, a proper prefix is smaller). -/
def strLt : List Char → List Char → Bool
  | [], [] => false
  | [], _ :: _ => true
  | _ :: _, [] => false
  | a :: as, b :: bs =>
    if a < b then true else if b < a then false else strLt as bs

/-- Strict order on segments: Python's `<` on the tagged pairs.  Tags are
compared first, so every numeric segment is below every textual one. -/
def segLt : Seg → Seg → Bool
  | Seg.num a, Seg.num b => decide (a < b)
  | Seg.num _, Seg.txt _ => true
  | Seg.txt _, Seg.num _ => false
  | Seg.txt a, Seg.txt b => strLt a b

/-- Lexicographic strict order on segment lists: Python's `<` on tuples
(a proper prefix is smaller). -/
def keyLt : List Seg → List Seg → Bool
  | [], [] => false
  | [], _ :: _ => true
  | _ :: _, [] => false
  | a :: as, b :: bs =>
    if segLt a b then true else if segLt b a then false else keyLt as bs

def version_key (s : String) : List Seg :=
  (rawTokens s.data).map fun t =>
    match t with
    | RawTok.digits r => Seg.num (natOfDigits r)
    | RawTok.letters r => Seg.txt (r.map Char.toLower)

/-- The comparator `is_version_newer(latest, current)` returns
`_version_key(latest) > _version_key(current)`; `x > y` is `y < x`. -/
def is_version_newer (latest current : String) : Bool :=
  keyLt (version_key current) (version_key latest)

/- ## Python dictionaries as association lists

`hash_to_file[h] = f` keeps an existing key at its position (replacing
its value) and appends a fresh key at the end; iteration follows that
order.  `dictInsert` embeds exactly that for lists with distinct keys. -/

def lookupMap {β : Type} : List (String × β) → String → Option β
  | [], _ => none
  | (k, v) :: m, h => if k = h then some v else lookupMap m h

def dictInsert {β : Type} : List (String × β) → String → β → List (String × β)
  | [], k, v => [(k, v)]
  | (k', v') :: m, k, v =>
    if k' = k then (k, v) :: m else (k', v') :: dictInsert m k v

/- ## Folder scanner data (`FolderScannerWorker.run`) -/

/-- One entry of the registry's `POST /version_files` response: the
fields of `recognized[f_hash]` the scanner reads. -/
structure VData where
  project_id : String
  id : String
  version_number : String
deriving DecidableEq

/-- One entry of a version's `files` array. -/
structure VFile where
  url : String
  filename : String
deriving DecidableEq

/-- One entry of the registry's `GET /project/{id}/version` response. -/
structure RVersion where
  id : String
  version_number : String
  version_type : String
  files : List VFile
deriving DecidableEq

/-- Outcome of one `requests.get` on the versions endpoint: a raised
exception, or a response with a status code and parsed JSON body. -/
inductive FetchRes where
  | exn
  | resp (code : Nat) (versions : List RVersion)
deriving DecidableEq

/-- The result dictionary built by `process_one_mod`: keys that may be
absent become `Option`, the absent `needs_update` key is `false`. -/
structure ScanResult where
  title : String
  display_name : String
  author : String
  version : String
  status : String
  url : Option String
  filename : Option String
  needs_update : Bool
deriving DecidableEq

/-- Embedding of `FolderScannerWorker.run.process_one_mod`.  The inner
`try` swallows any exception raised after the status field was already
mutated: with an empty `files` list on the newest version the record
keeps the already-written update status but gains no url, filename, or
`needs_update` flag. -/
def process_one_mod (check_updates : Bool)
    (recognized : List (String × VData)) (project_names : List (String × String))
    (fetch : String → FetchRes) (item : String × String) : ScanResult :=
  let f_hash := item.1
  let filename := item.2
  let base : ScanResult :=
    { title := filename, display_name := filename, author := "-", version := "-",
      status := "Неизвестно", url := none, filename := none, needs_update := false }
  match lookupMap recognized f_hash with
  | none => base
  | some v_data =>
    let r1 : ScanResult :=
      { base with
        title := (lookupMap project_names v_data.project_id).getD filename,
        author := "Modrinth", version := v_data.version_number, status := "Загружен" }
    if check_updates then
      match fetch v_data.project_id with
      | FetchRes.exn => r1
      | FetchRes.resp code versions =>
        if code = 200 then
          match versions with
          | [] => r1
          | latest :: _ =>
            if latest.id ≠ v_data.id then
              let r2 : ScanResult :=
                { r1 with
                  status := "Обновление! (" ++ v_data.version_number ++ " -> "
                    ++ latest.version_number ++ ")" }
              match latest.files with
              | [] => r2
              | f0 :: _ =>
                { r2 with
                  url := some f0.url
                  filename := some f0.filename
                  needs_update := true }
            else { r1 with status := "Актуально" }
        else r1
    else r1

/-- Embedding of `f.endswith('.jar')`-style checks. -/
def strEndsWith (s suf : String) : Bool :=
  suf.data.isSuffixOf s.data

def jarFiles (dirFiles : List String) : List String :=
  dirFiles.filter (fun f => strEndsWith f ".jar")

/-- One iteration of the scanner's hashing loop:
`h = get_file_hash(path); if h: hash_to_file[h] = f`. -/
def hashStep (hashOf : String → Option String)
    (m : List (String × String)) (f : String) : List (String × String) :=
  match hashOf f with
  | some h => dictInsert m h f
  | none => m

/-- The scanner's `hash_to_file` dictionary: iterate the listed files,
hash each, skip unreadable ones (`get_file_hash` returned `None`), and
assign into the dictionary so a repeated hash keeps its position but
takes the later file name. -/
def buildHashToFile (files : List String) (hashOf : String → Option String) :
    List (String × String) :=
  files.foldl (hashStep hashOf) []

/-- The multiset of records a scan emits: one `process_one_mod` result
per entry of `hash_to_file` (emission order is completion order, which
we do not model). -/
def scanRecords (dirFiles : List String) (hashOf : String → Option String)
    (check_updates : Bool) (recognized : List (String × VData))
    (project_names : List (String × String)) (fetch : String → FetchRes) :
    List ScanResult :=
  (buildHashToFile (jarFiles dirFiles) hashOf).map
    (process_one_mod check_updates recognized project_names fetch)

/- ## Search resolver ranking (`ModSearchWorker.run.sorting_key`) -/

/-- Python `str.strip()`: drop whitespace from both ends. -/
def pyStrip (s : List Char) : List Char :=
  ((s.dropWhile Char.isWhitespace).reverse.dropWhile Char.isWhitespace).reverse

/-- Python `str.lower()` on ASCII titles. -/
def pyLower (s : List Char) : List Char :=
  s.map Char.toLower

/-- Python `s.startswith(p)`. -/
def startsWith : List Char → List Char → Bool
  | _, [] => true
  | [], _ :: _ => false
  | a :: as, b :: bs => a == b && startsWith as bs

/-- One element of the search response's `hits` array, with the fields
the worker reads. -/
structure Hit where
  project_id : String
  title : List Char
  author : String
deriving DecidableEq

/-- Embedding of `ModSearchWorker.run.sorting_key`: `self.query` was stripped in
`__init__` already; the key strips and lowercases both sides again. -/
def sorting_key (query : List Char) (hit : Hit) : Nat :=
  if pyLower (pyStrip hit.title) = pyLower (pyStrip query) then 0
  else if startsWith (pyLower (pyStrip hit.title)) (pyLower (pyStrip query)) then 1
  else 2

/-- Stable insertion sort by a natural-number key: the embedding of
Python's guaranteed-stable `list.sort(key=...)` (equal keys keep their
original relative order). -/
def sInsert {α : Type} (key : α → Nat) (a : α) : List α → List α
  | [] => [a]
  | b :: bs => if key b < key a then b :: sInsert key a bs else a :: b :: bs

def sSort {α : Type} (key : α → Nat) : List α → List α
  | [] => []
  | x :: xs => sInsert key x (sSort key xs)

/-- Ranking pipeline: `hits.sort(key=sorting_key)` followed by `hits = hits[:15]`. -/
def rankHits (query : List Char) (hits : List Hit) : List Hit :=
  (sSort (sorting_key query) hits).take 15

/-- Exact case-insensitive title match after trimming. -/
def exactTitleMatch (query : List Char) (hit : Hit) : Bool :=
  pyLower (pyStrip hit.title) == pyLower (pyStrip query)

/-- Trimmed lowercased title starts with the trimmed lowercased query. -/
def titleStartsWithQuery (query : List Char) (hit : Hit) : Bool :=
  startsWith (pyLower (pyStrip hit.title)) (pyLower (pyStrip query))

/- ## Search resolver version selection (`ModSearchWorker.run.fetch_ver`) -/

/-- The dictionary `fetch_ver` returns for a candidate. -/
structure SearchRecord where
  title : List Char
  author : String
  version : String
  project_id : String
  url : String
  filename : String
  status : String
  needs_update : Bool
deriving DecidableEq

/-- The `for v in versions: if v.get("version_type") == t: selected_v = v; break`
loop: first version of the given type. -/
def firstOfType (t : String) : List RVersion → Option RVersion
  | [] => none
  | v :: vs => if v.version_type = t then some v else firstOfType t vs

/-- Selection cascade of `fetch_ver`: first release, else first beta, else
the first version returned. -/
def selectVersion (versions : List RVersion) : Option RVersion :=
  match firstOfType "release" versions with
  | some v => some v
  | none =>
    match firstOfType "beta" versions with
    | some v => some v
    | none => versions.head?

/-- Embedding of `ModSearchWorker.run.fetch_ver`: a raised or non-200
response yields no record, an empty version list yields no record, and
the `selected_v["files"][0]` IndexError on an empty `files` array is
caught by the surrounding `except`, also yielding no record. -/
def fetch_ver (hit : Hit) (res : FetchRes) : Option SearchRecord :=
  match res with
  | FetchRes.exn => none
  | FetchRes.resp code versions =>
    if code = 200 then
      match versions with
      | [] => none
      | _ :: _ =>
        match selectVersion versions with
        | none => none
        | some selected =>
          match selected.files with
          | [] => none
          | f0 :: _ =>
            some { title := hit.title, author := hit.author,
                   version := selected.version_number,
                   project_id := hit.project_id,
                   url := f0.url, filename := f0.filename,
                   status := "Доступен", needs_update := false }
    else none

/-- Witnesses that `s` occurs in `l` with property `p` and everything before it lacks
`p`: the specification's "the first version whose type is t". -/
def FirstWith (p : RVersion → Prop) (s : RVersion) (l : List RVersion) : Prop :=
  ∃ l1 l2, l = l1 ++ s :: l2 ∧ p s ∧ ∀ v ∈ l1, ¬ p v

/-- The specification's selection contract: the first release if any
release exists, else the first beta if any beta exists, else the first
version in the list. -/
def SelectedByPriority (s : RVersion) (l : List RVersion) : Prop :=
  ((∃ v ∈ l, v.version_type = "release")
      ∧ FirstWith (fun v => v.version_type = "release") s l)
  ∨ ((∀ v ∈ l, v.version_type ≠ "release") ∧ (∃ v ∈ l, v.version_type = "beta")
      ∧ FirstWith (fun v => v.version_type = "beta") s l)
  ∨ ((∀ v ∈ l, v.version_type ≠ "release") ∧ (∀ v ∈ l, v.version_type ≠ "beta")
      ∧ l.head? = some s)

/- ## Stale-file sweep (`ModManagerApp.download`) -/

/-- The sweep's `candidate_files`: jar files other than the new download's name. -/
def sweepCandidates (dirFiles : List String) (filename : String) : List String :=
  dirFiles.filter (fun f => strEndsWith f ".jar" && f ≠ filename)

/-- Per-entry decision of the hash-based deletion loop: delete the file
recorded for this response hash when its project matches and its name is
truthy and differs from the new filename. -/
def hashSweepItem (hash_to_file : List (String × String))
    (project_id filename : String) (p : String × VData) : Option String :=
  if p.2.project_id = project_id then
    match lookupMap hash_to_file p.1 with
    | some old => if old ≠ "" && old ≠ filename then some old else none
    | none => none
  else none

/-- Files removed by the hash-based sweep strategy. -/
def hashSweepDeleted (dirFiles : List String) (hashOf : String → Option String)
    (resolved : List (String × VData)) (project_id filename : String) : List String :=
  resolved.filterMap
    (hashSweepItem (buildHashToFile (sweepCandidates dirFiles filename) hashOf)
      project_id filename)

/-- The fallback's `valid_filenames`: every filename ever published for the project. -/
def validFilenames (versions : List RVersion) : List String :=
  versions.foldl (fun acc v => acc ++ v.files.map (fun f => f.filename)) []

/-- Files removed by the filename-based fallback sweep. -/
def fallbackSweepDeleted (dirFiles : List String) (versions : List RVersion)
    (filename : String) : List String :=
  dirFiles.filter (fun f => (validFilenames versions).contains f && f ≠ filename)

/-- Outcome of the batch `POST /version_files` call in `download`. -/
inductive BatchRes where
  | exn
  | resp (code : Nat) (resolved : List (String × VData))
deriving DecidableEq

/-- Outcome of the fallback `GET /project/{id}/version` call. -/
inductive FallbackRes where
  | exn
  | resp (code : Nat) (versions : List RVersion)
deriving DecidableEq

/-- Observable trace of one sweep: whether the batch call was issued,
whether control reached the filename fallback, whether an exception
aborted the `try` block, and which files were removed. -/
structure SweepTrace where
  batchAttempted : Bool
  fallbackRan : Bool
  aborted : Bool
  deleted : List String
deriving DecidableEq

/-- The `if not recognized_processed:` fallback branch of `download`. -/
def fallbackStep (dirFiles : List String) (fallback : FallbackRes)
    (filename : String) (attempted : Bool) : SweepTrace :=
  match fallback with
  | FallbackRes.exn =>
    { batchAttempted := attempted, fallbackRan := true, aborted := true, deleted := [] }
  | FallbackRes.resp code versions =>
    if code = 200 then
      { batchAttempted := attempted, fallbackRan := true, aborted := false,
        deleted := fallbackSweepDeleted dirFiles versions filename }
    else
      { batchAttempted := attempted, fallbackRan := true, aborted := false, deleted := [] }

/-- Control flow of the stale-file sweep in `ModManagerApp.download`:
with no hashable candidates the batch call is skipped and
`recognized_processed` stays false, so the fallback runs; a raised batch
call aborts the whole `try` (no fallback); a 200 batch response deletes
by project ID and sets `recognized_processed`, suppressing the fallback
even when nothing matched; a non-200 batch response leaves
`recognized_processed` false, so the fallback runs. -/
def sweep (dirFiles : List String) (hashOf : String → Option String)
    (batch : BatchRes) (fallback : FallbackRes)
    (project_id filename : String) : SweepTrace :=
  if buildHashToFile (sweepCandidates dirFiles filename) hashOf = [] then
    fallbackStep dirFiles fallback filename false
  else
    match batch with
    | BatchRes.exn =>
      { batchAttempted := true, fallbackRan := false, aborted := true, deleted := [] }
    | BatchRes.resp code resolved =>
      if code = 200 then
        { batchAttempted := true, fallbackRan := false, aborted := false,
          deleted := hashSweepDeleted dirFiles hashOf resolved project_id filename }
      else
        fallbackStep dirFiles fallback filename true

/- ## Downloader (`DownloadThread.run`) -/

/-- The three signals a download thread can emit. -/
inductive DlEvent where
  | progress (p : Nat)
  | finished (path : String)
  | failed (msg : String)
deriving DecidableEq

/-- Percentages emitted by the chunk loop: empty chunks are skipped
(`if chunk:`), the counter advances by the chunk length, and a percent
is emitted only when the content length `total` is non-zero
(`if total: self.progress.emit(int(downloaded * 100 / total))`). -/
def progressList (total : Nat) : Nat → List Nat → List Nat
  | _, [] => []
  | downloaded, c :: cs =>
    if c = 0 then progressList total downloaded cs
    else if total ≠ 0 then
      ((downloaded + c) * 100 / total) :: progressList total (downloaded + c) cs
    else progressList total (downloaded + c) cs

/-- Full event stream of one `DownloadThread.run`: the chunk list is
what arrived before success or before the raising point; exactly one
terminal signal follows the progress events and nothing comes after. -/
def runEvents (total : Nat) (chunks : List Nat) (didFail : Bool)
    (path msg : String) : List DlEvent :=
  (progressList total 0 chunks).map DlEvent.progress
    ++ (if didFail then [DlEvent.failed msg] else [DlEvent.finished path])

/-- Running totals of the byte counter after each kept chunk. -/
def cumSums : Nat → List Nat → List Nat
  | _, [] => []
  | acc, c :: cs => (acc + c) :: cumSums (acc + c) cs

/- ## Theorems -/

theorem strLt_irrefl (s : List Char) : strLt s s = false := by
  induction s with
  | nil => rfl
  | cons a as ih =>
    show strLt (a :: as) (a :: as) = false
    unfold strLt
    rw [if_neg (lt_irrefl a), if_neg (lt_irrefl a)]
    exact ih

theorem segLt_irrefl (a : Seg) : segLt a a = false := by
  cases a with
  | num n => simp [segLt]
  | txt s => simp [segLt, strLt_irrefl]

theorem keyLt_irrefl (k : List Seg) : keyLt k k = false := by
  induction k with
  | nil => rfl
  | cons a as ih => simp [keyLt, segLt_irrefl, ih]

theorem keyLt_cons_same (p : Seg) (xs ys : List Seg) :
    keyLt (p :: xs) (p :: ys) = keyLt xs ys := by
  simp [keyLt, segLt_irrefl]

theorem keyLt_append_same (ps xs ys : List Seg) :
    keyLt (ps ++ xs) (ps ++ ys) = keyLt xs ys := by
  induction ps with
  | nil => rfl
  | cons p pt ih => simpa [keyLt_cons_same] using ih

/-- C2: the five documented comparator cases hold, and the comparator is a
strict greater-than: `is_version_newer v v = false` for every string. -/
theorem version_comparator_spec_cases :
    is_version_newer "1.10" "1.9" = true ∧
    is_version_newer "1.2" "1.2" = false ∧
    is_version_newer "1.2.0" "1.2" = true ∧
    is_version_newer "" "1.0" = false ∧
    is_version_newer "1.0" "" = true ∧
    ∀ v : String, is_version_newer v v = false := by
  refine ⟨by decide, by decide, by decide, by decide, by decide, fun v => ?_⟩
  exact keyLt_irrefl (version_key v)

/-- C3 counterexample: the claim asserts `isNewer("1.2.0a", "1.2.0") = false`,
but the key of `"1.2.0"` is a proper strict prefix of the key of `"1.2.0a"`,
and a proper prefix sorts strictly below its extension, so the comparator
returns `true`. -/
theorem version_comparator_trailing_letter_counterexample :
    is_version_newer "1.2.0a" "1.2.0" = true := by decide

/-- C3 (amended): a numeric segment sorts below a textual segment at the
same position after any common key part; `isNewer("1.2.0a", "1.2.0")`
is `true` (the shorter key is a proper prefix, not a same-position
numeric-vs-textual comparison); `isNewer("1.2.1", "1.2")` is `true`; the
empty input yields the empty key, which sorts below every non-empty key. -/
theorem version_comparator_tag_order_amended :
    (∀ (ps : List Seg) (n : Nat) (s : List Char) (xs ys : List Seg),
        keyLt (ps ++ Seg.num n :: xs) (ps ++ Seg.txt s :: ys) = true) ∧
    is_version_newer "1.2.0a" "1.2.0" = true ∧
    is_version_newer "1.2.1" "1.2" = true ∧
    version_key "" = [] ∧
    (∀ ks : List Seg, ks ≠ [] → keyLt [] ks = true) := by
  refine ⟨fun ps n s xs ys => ?_, by decide, by decide, by decide, fun ks hks => ?_⟩
  · rw [keyLt_append_same]
    simp [keyLt, segLt]
  · cases ks with
    | nil => exact absurd rfl hks
    | cons k kt => rfl

theorem version_comparator_tag_order_amended_witness :
    ([Seg.num 1] ≠ ([] : List Seg)) ∧ keyLt [] [Seg.num 1] = true :=
  ⟨by decide, version_comparator_tag_order_amended.2.2.2.2 [Seg.num 1] (by decide)⟩

/-- C10: the version key depends only on the sequence of maximal digit
runs and letter runs, so two strings with the same runs (differing only
in separator characters) compare as equal: `is_version_newer` is false in
both directions. -/
theorem version_key_separator_invariance (a b : String)
    (h : rawTokens a.data = rawTokens b.data) :
    is_version_newer a b = false ∧ is_version_newer b a = false := by
  have hk : version_key a = version_key b := by
    unfold version_key
    rw [h]
  constructor
  · show keyLt (version_key b) (version_key a) = false
    rw [hk]
    exact keyLt_irrefl _
  · show keyLt (version_key a) (version_key b) = false
    rw [hk]
    exact keyLt_irrefl _

theorem version_key_separator_invariance_witness :
    (rawTokens "1.2".data = rawTokens "1-2".data) ∧
    is_version_newer "1.2" "1-2" = false ∧ is_version_newer "1-2" "1.2" = false :=
  ⟨by decide, (version_key_separator_invariance "1.2" "1-2" (by decide)).1,
    (version_key_separator_invariance "1.2" "1-2" (by decide)).2⟩

theorem lookupMap_dictInsert {β : Type} (m : List (String × β)) (k h : String) (v : β) :
    lookupMap (dictInsert m k v) h = if k = h then some v else lookupMap m h := by
  induction m with
  | nil => rfl
  | cons p m ih =>
    obtain ⟨k', v'⟩ := p
    by_cases hk : k' = k
    · subst hk
      by_cases hh : k' = h <;> simp [dictInsert, lookupMap, hh]
    · by_cases hh : k' = h
      · subst hh
        have hkh : ¬ k = k' := fun e => hk e.symm
        simp [dictInsert, hk, lookupMap, hkh]
      · simp [dictInsert, hk, lookupMap, hh, ih]

theorem keys_dictInsert {β : Type} (m : List (String × β)) (k h : String) (v : β) :
    h ∈ (dictInsert m k v).map Prod.fst ↔ h = k ∨ h ∈ m.map Prod.fst := by
  induction m with
  | nil => simp [dictInsert]
  | cons p m ih =>
    obtain ⟨k', v'⟩ := p
    by_cases hk : k' = k
    · simp [dictInsert, hk]
    · simp [dictInsert, hk, ih]
      tauto

theorem keys_nodup_dictInsert {β : Type} (m : List (String × β)) (k : String) (v : β)
    (hm : (m.map Prod.fst).Nodup) : ((dictInsert m k v).map Prod.fst).Nodup := by
  induction m with
  | nil => simp [dictInsert]
  | cons p m ih =>
    obtain ⟨k', v'⟩ := p
    simp only [List.map_cons, List.nodup_cons] at hm
    by_cases hk : k' = k
    · subst hk
      simp only [dictInsert, ite_true, List.map_cons, List.nodup_cons]
      exact hm
    · simp only [dictInsert, if_neg hk, List.map_cons, List.nodup_cons]
      refine ⟨?_, ih hm.2⟩
      intro hmem
      rcases (keys_dictInsert m k k' v).mp hmem with h | h
      · exact hk h
      · exact hm.1 h

theorem foldl_hashStep_keys_nodup (hashOf : String → Option String)
    (files : List String) :
    ∀ m : List (String × String), (m.map Prod.fst).Nodup →
      ((files.foldl (hashStep hashOf) m).map Prod.fst).Nodup := by
  induction files with
  | nil => intro m hm; simpa using hm
  | cons f fs ih =>
    intro m hm
    simp only [List.foldl_cons]
    apply ih
    unfold hashStep
    cases hashOf f with
    | none => exact hm
    | some h => exact keys_nodup_dictInsert _ _ _ hm

theorem foldl_hashStep_lookup (hashOf : String → Option String)
    (files : List String) :
    ∀ (m : List (String × String)) (h : String),
      lookupMap (files.foldl (hashStep hashOf) m) h
        = match files.reverse.find? (fun f => hashOf f == some h) with
          | some g => some g
          | none => lookupMap m h := by
  induction files with
  | nil => intro m h; rfl
  | cons f fs ih =>
    intro m h
    simp only [List.foldl_cons, List.reverse_cons, List.find?_append]
    rw [ih]
    cases hfind : fs.reverse.find? (fun f => hashOf f == some h) with
    | some g => simp [Option.or]
    | none =>
      simp only [Option.none_or]
      unfold hashStep
      cases hf : hashOf f with
      | none =>
        have hp : (hashOf f == some h) = false := by
          simp [hf]
        simp [List.find?, hp]
      | some h' =>
        by_cases hh : h' = h
        · subst hh
          have hp : (hashOf f == some h') = true := by
            simp [hf]
          simp [List.find?, hp, lookupMap_dictInsert]
        · have hp : (hashOf f == some h) = false := by
            simp [hf, hh]
          simp [List.find?, hp, lookupMap_dictInsert, hh]

theorem lookupMap_eq_none_iff {β : Type} (m : List (String × β)) (h : String) :
    lookupMap m h = none ↔ h ∉ m.map Prod.fst := by
  induction m with
  | nil => simp [lookupMap]
  | cons p m ih =>
    obtain ⟨k, v⟩ := p
    by_cases hk : k = h
    · simp [lookupMap, hk]
    · have hkh : ¬ h = k := fun e => hk e.symm
      simp [lookupMap, hk, hkh, ih]

theorem buildHashToFile_keys_nodup (files : List String)
    (hashOf : String → Option String) :
    ((buildHashToFile files hashOf).map Prod.fst).Nodup :=
  foldl_hashStep_keys_nodup hashOf files [] (by simp)

theorem buildHashToFile_lookup (files : List String)
    (hashOf : String → Option String) (h : String) :
    lookupMap (buildHashToFile files hashOf) h
      = files.reverse.find? (fun f => hashOf f == some h) := by
  have hx := foldl_hashStep_lookup hashOf files [] h
  unfold buildHashToFile
  rw [hx]
  cases files.reverse.find? (fun f => hashOf f == some h) <;> rfl

theorem buildHashToFile_keys_mem (files : List String)
    (hashOf : String → Option String) (h : String) :
    h ∈ (buildHashToFile files hashOf).map Prod.fst
      ↔ h ∈ files.filterMap hashOf := by
  have hiff : h ∈ (buildHashToFile files hashOf).map Prod.fst
      ↔ ¬ (lookupMap (buildHashToFile files hashOf) h = none) := by
    rw [lookupMap_eq_none_iff]
    tauto
  rw [hiff, buildHashToFile_lookup, List.find?_eq_none]
  simp only [List.mem_reverse, beq_iff_eq, List.mem_filterMap, not_forall]
  constructor
  · intro hx
    obtain ⟨f, hf, hval⟩ := hx
    exact ⟨f, hf, not_not.mp hval⟩
  · intro hx
    obtain ⟨f, hf, hval⟩ := hx
    exact ⟨f, hf, not_not.mpr hval⟩

theorem buildHashToFile_length (files : List String)
    (hashOf : String → Option String) :
    (buildHashToFile files hashOf).length
      = (files.filterMap hashOf).toFinset.card := by
  have hnd := buildHashToFile_keys_nodup files hashOf
  have hset : ((buildHashToFile files hashOf).map Prod.fst).toFinset
      = (files.filterMap hashOf).toFinset := by
    ext x
    simp only [List.mem_toFinset]
    exact buildHashToFile_keys_mem files hashOf x
  calc (buildHashToFile files hashOf).length
      = ((buildHashToFile files hashOf).map Prod.fst).length := by
        rw [List.length_map]
    _ = ((buildHashToFile files hashOf).map Prod.fst).toFinset.card :=
        (List.toFinset_card_of_nodup hnd).symm
    _ = (files.filterMap hashOf).toFinset.card := by rw [hset]

/-- C9: the scanner keys its work on content hashes: the hash map's keys
are distinct, one record is emitted per entry, the number of entries is
the number of distinct hashes among the readable jar files, a duplicated
hash keeps only the last-listed filename (lookup equals the last listed
file with that hash), and on a directory of two byte-identical jars the
record count is strictly below the file count. -/
theorem scanner_dedupes_by_hash (dirFiles : List String)
    (hashOf : String → Option String) (check_updates : Bool)
    (recognized : List (String × VData)) (project_names : List (String × String))
    (fetch : String → FetchRes) :
    ((buildHashToFile (jarFiles dirFiles) hashOf).map Prod.fst).Nodup ∧
    (scanRecords dirFiles hashOf check_updates recognized project_names fetch).length
      = (buildHashToFile (jarFiles dirFiles) hashOf).length ∧
    (buildHashToFile (jarFiles dirFiles) hashOf).length
      = ((jarFiles dirFiles).filterMap hashOf).toFinset.card ∧
    (∀ h, lookupMap (buildHashToFile (jarFiles dirFiles) hashOf) h
      = (jarFiles dirFiles).reverse.find? (fun f => hashOf f == some h)) ∧
    (buildHashToFile (jarFiles ["a.jar", "b.jar"]) (fun _ => some "h0")).length
      < (jarFiles ["a.jar", "b.jar"]).length := by
  refine ⟨buildHashToFile_keys_nodup _ _, ?_, buildHashToFile_length _ _,
    fun h => buildHashToFile_lookup _ _ h, by decide⟩
  unfold scanRecords
  rw [List.length_map]

/-- C1 counterexample: with update checking on, a recognized hash, and a
non-empty version list whose first entry has a different ID but an empty
`files` array, the emitted record carries the update-available status
text yet a null URL and an unset `needs_update`: the claim's "plus a
non-null download URL and filename, and needs_update is set" fails. -/
theorem scanner_update_status_counterexample :
    (process_one_mod true [("h1", ⟨"p1", "vOld", "1.0"⟩)] []
        (fun _ => FetchRes.resp 200 [⟨"vNew", "2.0", "release", []⟩])
        ("h1", "a.jar")).status = "Обновление! (1.0 -> 2.0)" ∧
    (process_one_mod true [("h1", ⟨"p1", "vOld", "1.0"⟩)] []
        (fun _ => FetchRes.resp 200 [⟨"vNew", "2.0", "release", []⟩])
        ("h1", "a.jar")).url = none ∧
    (process_one_mod true [("h1", ⟨"p1", "vOld", "1.0"⟩)] []
        (fun _ => FetchRes.resp 200 [⟨"vNew", "2.0", "release", []⟩])
        ("h1", "a.jar")).needs_update = false := by
  decide

/-- C1 (amended): for a recognized file with update checking on and a
registry response of status 200 with a non-empty version list whose
first (newest) version has at least one file, the record's status is
decided by comparing IDs: equal IDs give the up-to-date status, and
differing IDs give the update-available status carrying both version
numbers plus the first file's URL and filename and `needs_update`.
If the newest version's `files` list is empty the record instead keeps
the update-available status text with no URL and `needs_update` unset. -/
theorem scanner_update_status_amended
    (recognized : List (String × VData)) (project_names : List (String × String))
    (fetch : String → FetchRes) (f_hash filename : String) (v_data : VData)
    (latest : RVersion) (rest : List RVersion) (f0 : VFile) (fs : List VFile)
    (h1 : lookupMap recognized f_hash = some v_data)
    (h2 : fetch v_data.project_id = FetchRes.resp 200 (latest :: rest))
    (h3 : latest.files = f0 :: fs) :
    (latest.id = v_data.id →
      (process_one_mod true recognized project_names fetch (f_hash, filename)).status
          = "Актуально" ∧
      (process_one_mod true recognized project_names fetch (f_hash, filename)).needs_update
          = false) ∧
    (latest.id ≠ v_data.id →
      (process_one_mod true recognized project_names fetch (f_hash, filename)).status
          = "Обновление! (" ++ v_data.version_number ++ " -> "
            ++ latest.version_number ++ ")" ∧
      (process_one_mod true recognized project_names fetch (f_hash, filename)).url
          = some f0.url ∧
      (process_one_mod true recognized project_names fetch (f_hash, filename)).filename
          = some f0.filename ∧
      (process_one_mod true recognized project_names fetch (f_hash, filename)).needs_update
          = true) := by
  constructor
  · intro heq
    unfold process_one_mod
    simp only [h1, h2, h3, heq]
    simp
  · intro hne
    unfold process_one_mod
    simp only [h1, h2, h3]
    simp [hne]

theorem sInsert_append_lt {α : Type} (key : α → Nat) (a : α) (l1 l2 : List α)
    (h : ∀ b ∈ l1, key b < key a) :
    sInsert key a (l1 ++ l2) = l1 ++ sInsert key a l2 := by
  induction l1 with
  | nil => rfl
  | cons b bs ih =>
    simp only [List.cons_append, sInsert, if_pos (h b (List.mem_cons_self b bs))]
    simp only [List.append_eq]
    rw [ih (fun x hx => h x (List.mem_cons_of_mem b hx))]

theorem sInsert_front {α : Type} (key : α → Nat) (a : α) (l : List α)
    (h : ∀ b ∈ l, key a ≤ key b) :
    sInsert key a l = a :: l := by
  cases l with
  | nil => rfl
  | cons b bs =>
    have hb : ¬ key b < key a := not_lt.mpr (h b (List.mem_cons_self b bs))
    simp [sInsert, hb]

theorem sSort_three_buckets {α : Type} (key : α → Nat) (l : List α)
    (hk : ∀ a ∈ l, key a ≤ 2) :
    sSort key l
      = l.filter (fun a => key a == 0) ++ l.filter (fun a => key a == 1)
        ++ l.filter (fun a => key a == 2) := by
  induction l with
  | nil => rfl
  | cons x xs ih =>
    have hx : key x ≤ 2 := hk x (List.mem_cons_self x xs)
    have hxs : ∀ a ∈ xs, key a ≤ 2 := fun a ha => hk a (List.mem_cons_of_mem x ha)
    have key_of_mem : ∀ (n : Nat) (a : α), a ∈ xs.filter (fun a => key a == n) → key a = n := by
      intro n a ha
      have := (List.mem_filter.mp ha).2
      simpa using this
    simp only [sSort]
    rw [ih hxs]
    have hcase : key x = 0 ∨ key x = 1 ∨ key x = 2 := by omega
    rcases hcase with h0 | h1 | h2
    · rw [sInsert_front key x _ (fun b _ => by omega)]
      simp [List.filter_cons, h0]
    · rw [show xs.filter (fun a => key a == 0) ++ xs.filter (fun a => key a == 1)
            ++ xs.filter (fun a => key a == 2)
          = xs.filter (fun a => key a == 0)
            ++ (xs.filter (fun a => key a == 1) ++ xs.filter (fun a => key a == 2)) from by
        simp [List.append_assoc]]
      rw [sInsert_append_lt key x _ _ (fun b hb => by
        have := key_of_mem 0 b hb
        omega)]
      rw [sInsert_front key x _ (fun b hb => by
        rcases List.mem_append.mp hb with hb1 | hb2
        · have := key_of_mem 1 b hb1
          omega
        · have := key_of_mem 2 b hb2
          omega)]
      simp [List.filter_cons, h1]
    · rw [show xs.filter (fun a => key a == 0) ++ xs.filter (fun a => key a == 1)
            ++ xs.filter (fun a => key a == 2)
          = (xs.filter (fun a => key a == 0) ++ xs.filter (fun a => key a == 1))
            ++ xs.filter (fun a => key a == 2) from by
        simp [List.append_assoc]]
      rw [sInsert_append_lt key x _ _ (fun b hb => by
        rcases List.mem_append.mp hb with hb1 | hb2
        · have := key_of_mem 0 b hb1
          omega
        · have := key_of_mem 1 b hb2
          omega)]
      rw [sInsert_front key x _ (fun b hb => by
        have := key_of_mem 2 b hb
        omega)]
      simp [List.filter_cons, h2

      ]

theorem sorting_key_eq_zero (query : List Char) (h : Hit) :
    (sorting_key query h == 0) = exactTitleMatch query h := by
  unfold sorting_key exactTitleMatch
  split_ifs <;> simp_all

theorem sorting_key_eq_one (query : List Char) (h : Hit) :
    (sorting_key query h == 1)
      = (!exactTitleMatch query h && titleStartsWithQuery query h) := by
  unfold sorting_key exactTitleMatch titleStartsWithQuery
  split_ifs <;> simp_all

theorem sorting_key_eq_two (query : List Char) (h : Hit) :
    (sorting_key query h == 2)
      = (!exactTitleMatch query h && !titleStartsWithQuery query h) := by
  unfold sorting_key exactTitleMatch titleStartsWithQuery
  split_ifs <;> simp_all

theorem firstOfType_eq_none (t : String) (l : List RVersion) :
    firstOfType t l = none ↔ ∀ v ∈ l, v.version_type ≠ t := by
  induction l with
  | nil => simp [firstOfType]
  | cons v vs ih =>
    by_cases hv : v.version_type = t
    · simp [firstOfType, hv]
    · simp [firstOfType, hv, ih]

theorem firstOfType_eq_some (t : String) (l : List RVersion) (s : RVersion)
    (h : firstOfType t l = some s) :
    FirstWith (fun v => v.version_type = t) s l := by
  induction l with
  | nil => simp [firstOfType] at h
  | cons v vs ih =>
    by_cases hv : v.version_type = t
    · simp only [firstOfType, if_pos hv, Option.some.injEq] at h
      subst h
      exact ⟨[], vs, rfl, hv, by simp⟩
    · simp only [firstOfType, if_neg hv] at h
      obtain ⟨l1, l2, hl, hs, hall⟩ := ih h
      refine ⟨v :: l1, l2, by rw [hl, List.cons_append], hs, ?_⟩
      intro x hx
      rcases List.mem_cons.mp hx with hx | hx
      · rw [hx]; exact hv
      · exact hall x hx

theorem FirstWith_exists {p : RVersion → Prop} {s : RVersion} {l : List RVersion}
    (h : FirstWith p s l) : ∃ v ∈ l, p v := by
  obtain ⟨l1, l2, hl, hs, _⟩ := h
  exact ⟨s, by rw [hl]; exact List.mem_append_right l1 (List.mem_cons_self s l2), hs⟩

/-- C5: for a non-empty version list the selected version is the first
release if one exists, else the first beta if one exists, else the first
version returned; a raised fetch, a non-200 status, or an empty version
list produces no record; and any record produced carries the selected
version's version number. -/
theorem search_version_selection (hit : Hit) (versions : List RVersion)
    (hne : versions ≠ []) :
    (∃ s, selectVersion versions = some s ∧ SelectedByPriority s versions) ∧
    fetch_ver hit FetchRes.exn = none ∧
    fetch_ver hit (FetchRes.resp 200 []) = none ∧
    (∀ code vs, code ≠ 200 → fetch_ver hit (FetchRes.resp code vs) = none) ∧
    (∀ r, fetch_ver hit (FetchRes.resp 200 versions) = some r →
      ∃ s, selectVersion versions = some s ∧ r.version = s.version_number) := by
  have hsel : ∃ s, selectVersion versions = some s ∧ SelectedByPriority s versions := by
    unfold selectVersion
    cases hrel : firstOfType "release" versions with
    | some v =>
      have hfw := firstOfType_eq_some _ _ _ hrel
      exact ⟨v, rfl, Or.inl ⟨FirstWith_exists hfw, hfw⟩⟩
    | none =>
      have hnorel := (firstOfType_eq_none _ _).mp hrel
      cases hbeta : firstOfType "beta" versions with
      | some v =>
        have hfw := firstOfType_eq_some _ _ _ hbeta
        exact ⟨v, rfl, Or.inr (Or.inl ⟨hnorel, FirstWith_exists hfw, hfw⟩)⟩
      | none =>
        have hnobeta := (firstOfType_eq_none _ _).mp hbeta
        cases versions with
        | nil => exact absurd rfl hne
        | cons v vs =>
          exact ⟨v, rfl, Or.inr (Or.inr ⟨hnorel, hnobeta, rfl⟩)⟩
  refine ⟨hsel, rfl, rfl, fun code vs hcode => ?_, fun r hr => ?_⟩
  · simp [fetch_ver, hcode]
  · obtain ⟨s, hs, _⟩ := hsel
    refine ⟨s, hs, ?_⟩
    cases versions with
    | nil => exact absurd rfl hne
    | cons v vs =>
      simp only [fetch_ver, hs] at hr
      cases hfiles : s.files with
      | nil =>
        rw [hfiles] at hr
        simp at hr
      | cons f0 fs =>
        rw [hfiles] at hr
        simp at hr
        rw [← hr]

theorem search_version_selection_witness :
    (([⟨"v1", "1.0", "alpha", []⟩,
       ⟨"v2", "2.0", "beta", [⟨"u2", "f2.jar"⟩]⟩,
       ⟨"v3", "3.0", "release", [⟨"u3", "f3.jar"⟩]⟩] : List RVersion) ≠ []) ∧
    (∃ s, selectVersion
        [⟨"v1", "1.0", "alpha", []⟩,
         ⟨"v2", "2.0", "beta", [⟨"u2", "f2.jar"⟩]⟩,
         ⟨"v3", "3.0", "release", [⟨"u3", "f3.jar"⟩]⟩] = some s ∧
      SelectedByPriority s
        [⟨"v1", "1.0", "alpha", []⟩,
         ⟨"v2", "2.0", "beta", [⟨"u2", "f2.jar"⟩]⟩,
         ⟨"v3", "3.0", "release", [⟨"u3", "f3.jar"⟩]⟩]) :=
  ⟨by decide,
    (search_version_selection ⟨"p", ['m'], "a"⟩
      [⟨"v1", "1.0", "alpha", []⟩,
       ⟨"v2", "2.0", "beta", [⟨"u2", "f2.jar"⟩]⟩,
       ⟨"v3", "3.0", "release", [⟨"u3", "f3.jar"⟩]⟩] (by decide)).1⟩

theorem hashSweepItem_ne (m : List (String × String)) (pid fn : String)
    (p : String × VData) (x : String) (hx : hashSweepItem m pid fn p = some x) :
    x ≠ fn := by
  unfold hashSweepItem at hx
  split_ifs at hx with h1
  · cases hlk : lookupMap m p.1 with
    | none =>
      rw [hlk] at hx
      simp at hx
    | some old =>
      rw [hlk] at hx
      dsimp only at hx
      split_ifs at hx with h2
      simp only [Bool.and_eq_true, decide_eq_true_eq] at h2
      injection hx with h
      subst h
      exact h2.2

/-- C6: neither sweep strategy ever deletes a file whose name equals the
newly downloaded file's name: the hash strategy's per-entry check and
the fallback's filter both require the victim's name to differ from the
new filename. -/
theorem sweep_never_deletes_new_file (dirFiles : List String)
    (hashOf : String → Option String) (resolved : List (String × VData))
    (versions : List RVersion) (project_id filename : String) :
    filename ∉ hashSweepDeleted dirFiles hashOf resolved project_id filename ∧
    filename ∉ fallbackSweepDeleted dirFiles versions filename := by
  constructor
  · intro hmem
    unfold hashSweepDeleted at hmem
    rw [List.mem_filterMap] at hmem
    obtain ⟨p, _, hp⟩ := hmem
    exact hashSweepItem_ne _ _ _ _ _ hp rfl
  · intro hmem
    unfold fallbackSweepDeleted at hmem
    rw [List.mem_filter] at hmem
    have h2 := hmem.2
    simp at h2

/-- C7 counterexample: with no candidate jar files the batch resolve
call is never issued (so it cannot have "failed"), yet the fallback
branch still runs, refuting the claimed "if and only if the hash-based
batch resolve call itself fails". -/
theorem sweep_fallback_counterexample :
    (sweep [] (fun _ => none) (BatchRes.resp 200 []) (FallbackRes.resp 200 [])
      "p" "new.jar").fallbackRan = true ∧
    (sweep [] (fun _ => none) (BatchRes.resp 200 []) (FallbackRes.resp 200 [])
      "p" "new.jar").batchAttempted = false := by
  decide

/-- C7 (amended): the filename fallback runs iff the candidate hash map
is empty (no batch call is made) or the batch call returned a non-200
status; it does not run when the batch call succeeds with status 200,
even if nothing matched, and it also does not run when the batch call
raises: that exception aborts the whole sweep. -/
theorem sweep_fallback_amended (dirFiles : List String)
    (hashOf : String → Option String) (batch : BatchRes) (fallback : FallbackRes)
    (project_id filename : String) :
    ((sweep dirFiles hashOf batch fallback project_id filename).fallbackRan = true
      ↔ (buildHashToFile (sweepCandidates dirFiles filename) hashOf = []
         ∨ ∃ code resolved, batch = BatchRes.resp code resolved ∧ code ≠ 200)) ∧
    (∀ resolved, batch = BatchRes.resp 200 resolved →
      buildHashToFile (sweepCandidates dirFiles filename) hashOf ≠ [] →
      (sweep dirFiles hashOf batch fallback project_id filename).fallbackRan = false) ∧
    (batch = BatchRes.exn →
      buildHashToFile (sweepCandidates dirFiles filename) hashOf ≠ [] →
      (sweep dirFiles hashOf batch fallback project_id filename).fallbackRan = false ∧
      (sweep dirFiles hashOf batch fallback project_id filename).aborted = true) := by
  have hfb : ∀ fb att, (fallbackStep dirFiles fb filename att).fallbackRan = true := by
    intro fb att
    cases fb with
    | exn => rfl
    | resp code versions =>
      by_cases hc : code = 200 <;> simp [fallbackStep, hc]
  by_cases hmap : buildHashToFile (sweepCandidates dirFiles filename) hashOf = []
  · refine ⟨?_, ?_, ?_⟩
    · simp only [sweep, if_pos hmap, hfb]
      simp [hmap]
    · intro resolved hb hne
      exact absurd hmap hne
    · intro hb hne
      exact absurd hmap hne
  · cases batch with
    | exn =>
      refine ⟨?_, ?_, ?_⟩
      · simp only [sweep, if_neg hmap]
        simp [hmap]
      · intro resolved hb
        exact absurd hb (by simp)
      · intro hb hne
        simp [sweep, hmap]
    | resp code resolved =>
      by_cases hcode : code = 200
      · subst hcode
        refine ⟨?_, ?_, ?_⟩
        · simp only [sweep, if_neg hmap]
          simp [hmap]
        · intro r hb hne
          simp only [sweep, if_neg hmap]
          rfl
        · intro hb
          exact absurd hb (by simp)
      · refine ⟨?_, ?_, ?_⟩
        · simp only [sweep, if_neg hmap, if_neg hcode, hfb]
          simp [hmap, hcode]
        · intro r hb
          injection hb with h1 h2
          exact absurd h1 hcode
        · intro hb
          exact absurd hb (by simp)

theorem sweep_fallback_amended_witness :
    (sweep ["old.jar"] (fun _ => some "h1") (BatchRes.resp 404 [])
      (FallbackRes.resp 200 []) "p" "new.jar").fallbackRan = true :=
  (sweep_fallback_amended ["old.jar"] (fun _ => some "h1") (BatchRes.resp 404 [])
    (FallbackRes.resp 200 []) "p" "new.jar").1.mpr (Or.inr ⟨404, [], rfl, by decide⟩)

theorem progressList_eq_map (total : Nat) (htot : total ≠ 0) (chunks : List Nat) :
    ∀ d, progressList total d chunks
      = (cumSums d (chunks.filter (fun c => c ≠ 0))).map (fun x => x * 100 / total) := by
  induction chunks with
  | nil => intro d; rfl
  | cons c cs ih =>
    intro d
    by_cases hc : c = 0
    · simp [progressList, hc, List.filter_cons, ih]
    · simp only [progressList, if_neg hc, if_pos htot, List.filter_cons]
      rw [if_pos (by simpa using hc)]
      rw [cumSums, List.map_cons, ih (d + c)]

theorem progressList_total_zero (chunks : List Nat) :
    ∀ d, progressList 0 d chunks = [] := by
  induction chunks with
  | nil => intro d; rfl
  | cons c cs ih =>
    intro d
    by_cases hc : c = 0 <;> simp [progressList, hc, ih]

theorem cumSums_chain (cs : List Nat) :
    ∀ acc, List.Chain' (· ≤ ·) (cumSums acc cs)
      ∧ ∀ x ∈ cumSums acc cs, acc ≤ x := by
  induction cs with
  | nil => intro acc; simp [cumSums]
  | cons c cs ih =>
    intro acc
    obtain ⟨hch, hge⟩ := ih (acc + c)
    constructor
    · rw [cumSums]
      refine List.Chain'.cons' hch ?_
      intro y hy
      exact hge y (List.mem_of_mem_head? hy)
    · intro x hx
      rw [cumSums] at hx
      rcases List.mem_cons.mp hx with hx | hx
      · omega
      · have := hge x hx
        omega

theorem cumSums_getLast (cs : List Nat) :
    ∀ acc, cs ≠ [] → (cumSums acc cs).getLast? = some (acc + cs.sum) := by
  induction cs with
  | nil => intro acc h; exact absurd rfl h
  | cons c cs ih =>
    intro acc _
    cases cs with
    | nil => simp [cumSums]
    | cons c2 cs2 =>
      have h2 := ih (acc + c) (by simp)
      rw [cumSums]
      have hcons : cumSums (acc + c) (c2 :: cs2)
          = (acc + c + c2) :: cumSums (acc + c + c2) cs2 := rfl
      rw [hcons]
      rw [List.getLast?_cons_cons, ← hcons, h2]
      simp [List.sum_cons]
      omega

theorem sum_filter_nonzero (cs : List Nat) :
    (cs.filter (fun c => c ≠ 0)).sum = cs.sum := by
  induction cs with
  | nil => rfl
  | cons c cs ih =>
    rw [List.filter_cons]
    by_cases hc : c = 0
    · subst hc
      rw [if_neg (by simp)]
      rw [ih, List.sum_cons]
      omega
    · rw [if_pos (by simpa using hc)]
      rw [List.sum_cons, List.sum_cons, ih]

theorem sum_eq_zero_of_all (cs : List Nat) (h : ∀ c ∈ cs, c = 0) : cs.sum = 0 := by
  induction cs with
  | nil => rfl
  | cons c cs ih =>
    rw [List.sum_cons, h c (List.mem_cons_self c cs),
      ih (fun x hx => h x (List.mem_cons_of_mem c hx))]

/-- C8: with a non-zero known total every emitted percentage is
`floor(transferred * 100 / total)` for the running byte counter, the
percentages are monotonically non-decreasing, and when the received
bytes sum to the total (a completed transfer) the last percentage is
100; with an unknown total (content-length 0) no percentage is emitted;
a failed run ends with the single terminal failure signal and everything
before it is a progress event, and a successful run ends with the
terminal finished signal. -/
theorem download_progress_contract (total : Nat) (chunks : List Nat)
    (path msg : String) :
    (total ≠ 0 →
      progressList total 0 chunks
          = (cumSums 0 (chunks.filter (fun c => c ≠ 0))).map (fun x => x * 100 / total) ∧
      List.Chain' (· ≤ ·) (progressList total 0 chunks) ∧
      (chunks.sum = total → (progressList total 0 chunks).getLast? = some 100)) ∧
    (total = 0 → progressList total 0 chunks = []) ∧
    (runEvents total chunks true path msg).getLast? = some (DlEvent.failed msg) ∧
    (runEvents total chunks true path msg).dropLast
        = (progressList total 0 chunks).map DlEvent.progress ∧
    (runEvents total chunks false path msg).getLast? = some (DlEvent.finished path) := by
  refine ⟨fun htot => ⟨progressList_eq_map total htot chunks 0, ?_, fun hsum => ?_⟩,
    fun h0 => by rw [h0]; exact progressList_total_zero chunks 0,
    ?_, ?_, ?_⟩
  · rw [progressList_eq_map total htot chunks 0]
    rw [List.chain'_map]
    refine List.Chain'.imp ?_ (cumSums_chain (chunks.filter (fun c => c ≠ 0)) 0).1
    intro a b hab
    exact Nat.div_le_div_right (Nat.mul_le_mul_right 100 hab)
  · rw [progressList_eq_map total htot chunks 0]
    have hne : chunks.filter (fun c => c ≠ 0) ≠ [] := by
      intro hnil
      have hall : ∀ c ∈ chunks, c = 0 := by
        intro c hc
        have := List.filter_eq_nil_iff.mp hnil c hc
        simpa using this
      have hzero : chunks.sum = 0 := sum_eq_zero_of_all chunks hall
      omega
    rw [List.getLast?_map, cumSums_getLast _ 0 hne, sum_filter_nonzero, hsum]
    show some ((0 + total) * 100 / total) = some 100
    rw [Nat.zero_add, Nat.mul_div_cancel_left 100 (Nat.pos_of_ne_zero htot)]
  · exact List.getLast?_concat _
  · unfold runEvents
    rw [if_pos rfl]
    exact List.dropLast_concat
  · exact List.getLast?_concat _

theorem download_progress_contract_witness :
    ((10 : Nat) ≠ 0) ∧ (([4, 0, 6] : List Nat).sum = 10) ∧
    List.Chain' (· ≤ ·) (progressList 10 0 [4, 0, 6]) ∧
    (progressList 10 0 [4, 0, 6]).getLast? = some 100 :=
  ⟨by decide, by decide,
    ((download_progress_contract 10 [4, 0, 6] "p" "m").1 (by decide)).2.1,
    ((download_progress_contract 10 [4, 0, 6] "p" "m").1 (by decide)).2.2 (by decide)⟩

/-- C4: ranking sorts the registry's hits into three buckets, exact
case-insensitive trimmed title match first, then prefix-of-title match,
then everything else, each bucket preserving the registry's original
relative order, and only the ranked list is truncated to 15 candidates. -/
theorem search_ranking_buckets (query : List Char) (hits : List Hit) :
    rankHits query hits
      = ((hits.filter (fun h => exactTitleMatch query h))
          ++ (hits.filter (fun h => !exactTitleMatch query h && titleStartsWithQuery query h))
          ++ (hits.filter (fun h => !exactTitleMatch query h && !titleStartsWithQuery query h))).take 15 := by
  unfold rankHits
  rw [sSort_three_buckets (sorting_key query) hits (fun a _ => by
    unfold sorting_key
    split_ifs <;> omega)]
  simp only [sorting_key_eq_zero, sorting_key_eq_one, sorting_key_eq_two]

theorem scanner_update_status_amended_witness :
    (process_one_mod true [("h1", ⟨"p1", "vOld", "1.0"⟩)] []
        (fun _ => FetchRes.resp 200 [⟨"vNew", "2.0", "release", [⟨"u", "new.jar"⟩]⟩])
        ("h1", "a.jar")).status = "Обновление! (1.0 -> 2.0)" ∧
    (process_one_mod true [("h1", ⟨"p1", "vOld", "1.0"⟩)] []
        (fun _ => FetchRes.resp 200 [⟨"vNew", "2.0", "release", [⟨"u", "new.jar"⟩]⟩])
        ("h1", "a.jar")).url = some "u" ∧
    (process_one_mod true [("h1", ⟨"p1", "vOld", "1.0"⟩)] []
        (fun _ => FetchRes.resp 200 [⟨"vNew", "2.0", "release", [⟨"u", "new.jar"⟩]⟩])
        ("h1", "a.jar")).filename = some "new.jar" ∧
    (process_one_mod true [("h1", ⟨"p1", "vOld", "1.0"⟩)] []
        (fun _ => FetchRes.resp 200 [⟨"vNew", "2.0", "release", [⟨"u", "new.jar"⟩]⟩])
        ("h1", "a.jar")).needs_update = true := by
  have h := (scanner_update_status_amended
    [("h1", ⟨"p1", "vOld", "1.0"⟩)] []
    (fun _ => FetchRes.resp 200 [⟨"vNew", "2.0", "release", [⟨"u", "new.jar"⟩]⟩])
    "h1" "a.jar" ⟨"p1", "vOld", "1.0"⟩ ⟨"vNew", "2.0", "release", [⟨"u", "new.jar"⟩]⟩
    [] ⟨"u", "new.jar"⟩ [] (by decide) rfl rfl).2 (by decide)
  exact ⟨h.1, h.2.1, h.2.2.1, h.2.2.2⟩
